import Mathlib

/-
Verification of the KODO storage driver (registry/storage/driver/kodo/kodo.go).

The driver is modelled shallowly:
  * Go strings are lists of characters (`GoStr`); Go's byte-wise string order is the
    lexicographic order on `List Char`.
  * The remote bucket is an association list from keys to byte contents, kept in
    ascending key order (the remote list API serves keys lexicographically); bytes are
    natural numbers.
  * Each driver operation becomes a pure function from the store (and the driver
    configuration: root directory and path) to its result; remote side effects are
    returned as values (`WriteAction`, `ReadResult`, the updated store).
  * The external SDK primitives consumed by the driver (bucket list/stat/delete/move and
    the compose-from-parts call) are not part of this repository; they are modelled
    after the behaviour the spec and the driver code rely on, and each such model is
    marked in its doc comment.
-/

deriving instance DecidableEq for Except

namespace Kodo

/-- Go strings, as character lists. -/
abbrev GoStr := List Char

/-- `strings.TrimLeft(s, "/")`: drop every leading slash. -/
def trimLeftSlash (s : GoStr) : GoStr := s.dropWhile (fun c => c = '/')

/-- `getKey` from kodo.go line 513: remote key = RootDirectory ++ path, left-trimmed of
slashes. -/
def getKey (root p : GoStr) : GoStr := trimLeftSlash (root ++ p)

/-- `strings.TrimSuffix(s, "/")`: remove one trailing slash if present. -/
def trimSuffixSlash (s : GoStr) : GoStr :=
  if s.getLast? = some '/' then s.dropLast else s

/-- `strings.Replace(s, old, nw, 1)`: replace the first occurrence of `old` in `s` by
`nw`; with `old = ""` this inserts `nw` at the front, as in Go. -/
def replaceFirst (s old nw : GoStr) : GoStr :=
  if old.isPrefixOf s then nw ++ s.drop old.length
  else
    match s with
    | [] => []
    | c :: rest => c :: replaceFirst rest old nw

/-- One entry of a compose-from-parts request (`qiniurs.Part`): either a byte range of
an existing remote object (`stop = -1` meaning "to the end"), or locally supplied
bytes. -/
inductive Part where
  | remoteRange (key : GoStr) (start stop : Int)
  | localBytes (bytes : List Nat)
deriving DecidableEq

/-- The part sequence WriteStream builds in its `writeWholeFile == false` branch
(kodo.go lines 256-329).  `size` is the pre-write `stat.Size()`, `offset` the write
offset, and the incoming stream has been buffered to `incoming`, so the copied byte
count `written` is its length. -/
def writeParts (key : GoStr) (size offset : Int) (incoming : List Nat) : List Part :=
  let written : Int := incoming.length
  if offset = 0 then
    [Part.localBytes incoming] ++
      (if written < size then [Part.remoteRange key written (-1)] else [])
  else if offset = size then
    [Part.remoteRange key 0 (-1), Part.localBytes incoming]
  else if offset < size then
    [Part.remoteRange key 0 offset, Part.localBytes incoming] ++
      (if written + offset < size then [Part.remoteRange key (written + offset) (-1)]
       else [])
  else if offset > size then
    [Part.remoteRange key 0 (-1),
     Part.localBytes (List.replicate (offset - size).toNat 0),
     Part.localBytes incoming]
  else []

/-- Modelled from the spec: the remote compose-from-parts primitive (`qiniurs.PutParts`,
an external SDK call that is not part of this repository).  Per spec sections 3 and 4.1
a `RemoteRange` part selects bytes `[start, stop)` of the existing object, with
`stop = -1` meaning "to the end of the object". -/
def evalPart (existing : List Nat) : Part → List Nat
  | Part.remoteRange _ a b =>
      if b = -1 then existing.drop a.toNat else (existing.take b.toNat).drop a.toNat
  | Part.localBytes bs => bs

/-- Modelled from the spec: the object produced by the compose call is the concatenation
of its parts in order. -/
def composeParts (existing : List Nat) (ps : List Part) : List Nat :=
  (ps.map (evalPart existing)).flatten

/-- The remote bucket: keys with their byte contents, in ascending key order. -/
abbrev Store := List (GoStr × List Nat)

/-- The bucket invariant: keys strictly ascending (hence pairwise distinct). -/
abbrev StoreSorted (s : Store) : Prop := List.Pairwise (fun a b => a.1 < b.1) s

/-- A listed entry (`kodo.ListItem`): key and file size.  (PutTime is omitted: no claim
mentions modification times.) -/
structure ListItem where
  key : GoStr
  fsize : Int
deriving DecidableEq

/-- The listed entry for a stored object. -/
def mkItem (q : GoStr × List Nat) : ListItem := ⟨q.1, (q.2.length : Int)⟩

/-- Whether key `k` lies strictly after the continuation marker (`""` = start of the
listing). -/
def afterMarker (marker k : GoStr) : Bool := marker.isEmpty || decide (marker < k)

/-- The keys served by a prefix listing resumed at `marker`. -/
def matchKey (pfx marker k : GoStr) : Bool := pfx.isPrefixOf k && afterMarker marker k

/-- Errors surfaced by the modelled operations: the host's path-not-found error and the
remote API's status-coded errors (612 = key does not exist). -/
inductive Err where
  | pathNotFound (path : GoStr)
  | rpcError (code : Int)
deriving DecidableEq

/-- `isKeyNotExists` from kodo.go line 517: an `rpc.ErrorInfo` with code 612. -/
def isKeyNotExists (e : Err) : Bool :=
  match e with
  | Err.rpcError c => c == 612
  | _ => false

/-- `parseError` from kodo.go line 524: translate the remote 612 status into the host's
path-not-found error, pass everything else through. -/
def parseError (p : GoStr) (e : Err) : Err :=
  if isKeyNotExists e then Err.pathNotFound p else e

/-- Modelled external API: `bucket.List` with an empty delimiter — the stored keys with
the given prefix strictly after the marker, in store (ascending) order, capped at
`limit`; the returned marker is empty when nothing remains beyond the page, else the
last key of the page. -/
def bucketList (s : Store) (pfx marker : GoStr) (limit : Nat) :
    List ListItem × GoStr :=
  let ms := s.filter (fun q => matchKey pfx marker q.1)
  let page := ms.take limit
  (page.map mkItem,
   if ms.length ≤ limit then [] else (page.map (fun q => q.1)).getLastD [])

/-- The host's `storagedriver.FileInfo`, as far as the driver fills it in (ModTime is
omitted: no claim mentions it). -/
structure FileInfo where
  path : GoStr
  size : Int
  isDir : Bool
deriving DecidableEq

/-- `Stat` from kodo.go lines 346-376: list at most one key having the path's key as a
prefix; no such key → path not found; a first listed key differing from the exact key →
directory (size left zero). -/
def stat (s : Store) (root p : GoStr) : Except Err FileInfo :=
  match (bucketList s (getKey root p) [] 1).1 with
  | [] => Except.error (Err.pathNotFound p)
  | it :: _ =>
      let isDir := !(getKey root p == it.key)
      Except.ok { path := p, size := if isDir then 0 else it.fsize, isDir := isDir }

/-- The remote call WriteStream finally makes: a compose-from-parts submission or a
whole-file upload. -/
inductive WriteAction where
  | putParts (key : GoStr) (parts : List Part)
  | putFile (key : GoStr) (content : List Nat)
deriving DecidableEq

/-- `WriteStream` from kodo.go lines 212-342, given the result of its pre-write `d.Stat`
lookup: a not-found lookup (the code compares error messages; two path-not-found errors
for the same path have equal messages) routes to a whole-file upload of the buffered
bytes, any other lookup error is returned; with a successful lookup the range-emulation
part plan is submitted.  The returned integer is `written`, the full buffered length,
reported to the caller. -/
def writeStreamAux (statRes : Except Err FileInfo) (root p : GoStr) (offset : Int)
    (incoming : List Nat) : Except Err (WriteAction × Int) :=
  match statRes with
  | Except.error e =>
      if e = Err.pathNotFound p then
        Except.ok (WriteAction.putFile (getKey root p) incoming, (incoming.length : Int))
      else Except.error e
  | Except.ok st =>
      Except.ok (WriteAction.putParts (getKey root p)
        (writeParts (getKey root p) st.size offset incoming), (incoming.length : Int))

/-- `WriteStream` over a concrete store: the pre-write lookup is the driver's own
`Stat`. -/
def writeStream (s : Store) (root p : GoStr) (offset : Int) (incoming : List Nat) :
    Except Err (WriteAction × Int) :=
  writeStreamAux (stat s root p) root p offset incoming

/-- Modelled external API: `bucket.Stat` — exact-key lookup, status 612 when the key is
absent. -/
def bucketStat (s : Store) (k : GoStr) : Except Err ListItem :=
  match s.find? (fun q => q.1 == k) with
  | some q => Except.ok (mkItem q)
  | none => Except.error (Err.rpcError 612)

/-- What ReadStream hands back: an empty reader, or the ranged GET it issues against the
remote store. -/
inductive ReadResult where
  | emptyReader
  | rangeRequest (key : GoStr) (offset : Int)
deriving DecidableEq

/-- `ReadStream` from kodo.go lines 171-206: stat the exact key (612 translated to path
not found); return an empty reader when `offset >= stat.Fsize`; otherwise issue the GET
with a Range header starting at `offset`. -/
def readStream (s : Store) (root p : GoStr) (offset : Int) : Except Err ReadResult :=
  match bucketStat s (getKey root p) with
  | Except.error e => Except.error (parseError p e)
  | Except.ok st =>
      if offset ≥ st.fsize then Except.ok ReadResult.emptyReader
      else Except.ok (ReadResult.rangeRequest (getKey root p) offset)

/-- `listMax` from kodo.go line 35. -/
def listMax : Nat := 1000

/-- Modelled external API: `bucket.Delete` — remove the entry at the exact key, status
612 when it is absent. -/
def bucketDelete (s : Store) (k : GoStr) : Except Err Store :=
  if s.any (fun q => q.1 == k) then Except.ok (s.filter (fun q => !(q.1 == k)))
  else Except.error (Err.rpcError 612)

/-- The inner per-page loop of `Delete` (kodo.go lines 476-484): delete every listed
key, skipping 612 errors, stopping at any other error. -/
def deletePage (s : Store) (ks : List GoStr) : Except Err Store :=
  match ks with
  | [] => Except.ok s
  | k :: rest =>
      match bucketDelete s k with
      | Except.ok s2 => deletePage s2 rest
      | Except.error e =>
          if isKeyNotExists e then deletePage s rest else Except.error e

/-- The paginated loop of `Delete` (kodo.go lines 462-489).  `fuel` bounds the iteration
count: each truncated page deletes `listMax` stored entries, so `s.length + 1` always
suffices, and `none` (fuel exhausted) is never reached from `delete`. -/
def deleteLoop (fuel : Nat) (s : Store) (p pfx marker : GoStr) (cnt : Nat) :
    Option (Except Err Store) :=
  match fuel with
  | 0 => none
  | Nat.succ fuel =>
      let r := bucketList s pfx marker listMax
      if cnt + r.1.length = 0 then some (Except.error (Err.pathNotFound p))
      else
        match deletePage s (r.1.map ListItem.key) with
        | Except.error e => some (Except.error e)
        | Except.ok s2 =>
            if r.2 = [] then some (Except.ok s2)
            else deleteLoop fuel s2 p pfx r.2 (cnt + r.1.length)

/-- `Delete` from kodo.go lines 452-492. -/
def delete (s : Store) (root p : GoStr) : Option (Except Err Store) :=
  deleteLoop (s.length + 1) s p (getKey root p) [] 0

/-- Modelled external API: `bucket.Move` — the source key must exist (status 612
otherwise) and the destination key must be absent (the driver deletes it first); the
entry is re-keyed to the destination. -/
def bucketMove (s : Store) (src dst : GoStr) : Except Err Store :=
  match s.find? (fun q => q.1 == src) with
  | none => Except.error (Err.rpcError 612)
  | some q =>
      if s.any (fun r => r.1 == dst) then Except.error (Err.rpcError 614)
      else Except.ok (s.filter (fun r => !(r.1 == src)) ++ [(dst, q.2)])

/-- `Move` from kodo.go lines 433-449: stat the source (612 translated for the source
path), delete any existing destination ignoring 612, then the remote move (whose error
is again translated for the source path). -/
def move (s : Store) (root src dst : GoStr) : Except Err Store :=
  match bucketStat s (getKey root src) with
  | Except.error e => Except.error (parseError src e)
  | Except.ok _ =>
      let afterDel : Except Err Store :=
        match bucketDelete s (getKey root dst) with
        | Except.ok s2 => Except.ok s2
        | Except.error e =>
            if isKeyNotExists e then Except.ok s else Except.error e
      match afterDel with
      | Except.error e => Except.error e
      | Except.ok s2 =>
          match bucketMove s2 (getKey root src) (getKey root dst) with
          | Except.ok s3 => Except.ok s3
          | Except.error e => Except.error (parseError src e)

/-- Modelled external API: `bucket.List` with delimiter `/` (the pagination protocol of
the remote service is out of the spec's scope; it is abstracted to a single page): keys
with the given prefix whose remainder holds no slash are served as entries, the others
are rolled up into the deduplicated common prefixes `pfx ++ segment ++ "/"`. -/
def bucketListDelim (s : Store) (pfx : GoStr) : List ListItem × List GoStr :=
  let ms := s.filter (fun q => pfx.isPrefixOf q.1)
  ((ms.filter (fun q => !((q.1.drop pfx.length).contains '/'))).map mkItem,
   (((ms.map (fun q => q.1)).filter (fun k => (k.drop pfx.length).contains '/')).map
      (fun k => pfx ++ (k.drop pfx.length).takeWhile (fun c => !(c == '/')) ++ ['/'])).dedup)

/-- `List` from kodo.go lines 380-427: append a slash to the queried path unless it is
the root or already ends in one; list with delimiter `/`; files are the listed keys and
directories the common prefixes with their trailing slash trimmed, each with the first
occurrence of the configured root key replaced by `/` (empty root) or by nothing
(non-empty root). -/
def list (s : Store) (root p : GoStr) : List GoStr :=
  let p2 := if p ≠ ['/'] ∧ p.getLast? ≠ some '/' then p ++ ['/'] else p
  let rootKey := getKey root []
  let rootPfx : GoStr := if rootKey = [] then ['/'] else []
  let r := bucketListDelim s (getKey root p2)
  (r.1.map (fun it => replaceFirst it.key rootKey rootPfx)) ++
    (r.2.map (fun q => replaceFirst (trimSuffixSlash q) rootKey rootPfx))

/-- The host's path syntax (`storagedriver.PathRegexp`), as far as the claims consult
it: one or more slash-led nonempty components holding no slash. -/
def ValidPath (p : GoStr) : Prop :=
  ∃ segs : List GoStr, segs ≠ [] ∧ (∀ t ∈ segs, t ≠ [] ∧ '/' ∉ t) ∧
    p = segs.flatMap (fun t => '/' :: t)

/-! ### Helpers about the key order and the listing model -/

theorem lex_lt_append (a t : GoStr) (h : t ≠ []) : a < a ++ t := by
  induction a with
  | nil =>
    cases t with
    | nil => exact absurd rfl h
    | cons c cs => exact List.Lex.nil
  | cons x xs ih => exact List.Lex.cons ih

theorem lex_lt_of_prefix_ne {a b : GoStr} (h : a <+: b) (hne : a ≠ b) : a < b := by
  obtain ⟨t, rfl⟩ := h
  have ht : t ≠ [] := by rintro rfl; simp at hne
  exact lex_lt_append a t ht

/-- In a sorted store, the first key having a stored key `k` as a prefix is `k`
itself. -/
theorem filter_head_of_mem {s : Store} {k : GoStr} {b : List Nat}
    (hs : StoreSorted s) (hmem : (k, b) ∈ s) :
    ∃ rest, s.filter (fun q => k.isPrefixOf q.1) = (k, b) :: rest := by
  induction s with
  | nil => cases hmem
  | cons q tl ih =>
    rcases List.mem_cons.mp hmem with hq | htl
    · subst hq
      refine ⟨tl.filter (fun q => k.isPrefixOf q.1), ?_⟩
      simp [List.filter_cons, List.isPrefixOf_iff_prefix]
    · have hlt : q.1 < k := (List.pairwise_cons.mp hs).1 (k, b) htl
      have hne : ¬ (k.isPrefixOf q.1 = true) := by
        intro hpre
        rcases eq_or_ne k q.1 with he | hne2
        · exact absurd hlt (by rw [← he]; exact lt_irrefl k)
        · exact absurd hlt (lt_asymm
            (lex_lt_of_prefix_ne (List.isPrefixOf_iff_prefix.mp hpre) hne2))
      obtain ⟨rest, hrest⟩ := ih (List.pairwise_cons.mp hs).2 htl
      exact ⟨rest, by simp [List.filter_cons, hne, hrest]⟩

/-- `Stat` on a path whose exact key is stored yields that object's file info. -/
theorem stat_of_mem (s : Store) (root p : GoStr) (b : List Nat)
    (hs : StoreSorted s) (hmem : (getKey root p, b) ∈ s) :
    stat s root p =
      Except.ok { path := p, size := (b.length : Int), isDir := false } := by
  obtain ⟨rest, hr⟩ := filter_head_of_mem hs hmem
  have hfil : s.filter (fun q => matchKey (getKey root p) [] q.1) =
      (getKey root p, b) :: rest := by
    rw [← hr]
    apply List.filter_congr
    intro x hx
    simp [matchKey, afterMarker]
  simp [stat, bucketList, hfil, mkItem]

/-! ### The part plans WriteStream builds, and the objects they compose to -/

theorem writeParts_offset_zero (key : GoStr) (size : Int) (incoming : List Nat) :
    writeParts key size 0 incoming =
      [Part.localBytes incoming] ++
        (if (incoming.length : Int) < size then
          [Part.remoteRange key (incoming.length : Int) (-1)] else []) := by
  simp [writeParts]

theorem writeParts_append (key : GoStr) (size : Int) (incoming : List Nat)
    (h : size ≠ 0) :
    writeParts key size size incoming =
      [Part.remoteRange key 0 (-1), Part.localBytes incoming] := by
  simp [writeParts, h]

theorem writeParts_middle (key : GoStr) (size offset : Int) (incoming : List Nat)
    (h1 : 0 < offset) (h2 : offset < size) :
    writeParts key size offset incoming =
      [Part.remoteRange key 0 offset, Part.localBytes incoming] ++
        (if (incoming.length : Int) + offset < size then
          [Part.remoteRange key ((incoming.length : Int) + offset) (-1)] else []) := by
  have h0 : ¬(offset = 0) := by omega
  have hs : ¬(offset = size) := by omega
  simp [writeParts, h0, hs, h2]

theorem writeParts_sparse (key : GoStr) (size offset : Int) (incoming : List Nat)
    (h1 : 0 ≤ size) (h2 : size < offset) :
    writeParts key size offset incoming =
      [Part.remoteRange key 0 (-1),
       Part.localBytes (List.replicate (offset - size).toNat 0),
       Part.localBytes incoming] := by
  have h0 : ¬(offset = 0) := by omega
  have hs : ¬(offset = size) := by omega
  have hlt : ¬(offset < size) := by omega
  simp [writeParts, h0, hs, hlt, h2]

theorem composeParts_offset_zero (key : GoStr) (ex incoming : List Nat) :
    composeParts ex (writeParts key (ex.length : Int) 0 incoming) =
      incoming ++
        (if (incoming.length : Int) < (ex.length : Int) then
          ex.drop incoming.length else []) := by
  by_cases h : (incoming.length : Int) < (ex.length : Int)
  · simp [writeParts, composeParts, evalPart, h]
  · simp [writeParts, composeParts, evalPart, h]

theorem composeParts_append (key : GoStr) (ex incoming : List Nat) :
    composeParts ex (writeParts key (ex.length : Int) (ex.length : Int) incoming) =
      ex ++ incoming := by
  by_cases h : ex = []
  · subst h; simp [writeParts, composeParts, evalPart]
  · have h0 : ¬((ex.length : Int) = 0) := by
      simp [List.length_eq_zero, h]
    simp [writeParts, composeParts, evalPart, h0]

theorem composeParts_middle (key : GoStr) (ex incoming : List Nat) (offset : Int)
    (h1 : 0 < offset) (h2 : offset < (ex.length : Int)) :
    composeParts ex (writeParts key (ex.length : Int) offset incoming) =
      ex.take offset.toNat ++ incoming ++
        (if (incoming.length : Int) + offset < (ex.length : Int) then
          ex.drop ((incoming.length : Int) + offset).toNat else []) := by
  have hm1 : ¬(offset = -1) := by omega
  rw [writeParts_middle key _ offset incoming h1 h2]
  by_cases h3 : (incoming.length : Int) + offset < (ex.length : Int)
  · simp [composeParts, evalPart, h3, hm1]
  · simp [composeParts, evalPart, h3, hm1]

theorem composeParts_sparse (key : GoStr) (ex incoming : List Nat) (offset : Int)
    (h : (ex.length : Int) < offset) :
    composeParts ex (writeParts key (ex.length : Int) offset incoming) =
      ex ++ List.replicate (offset - (ex.length : Int)).toNat 0 ++ incoming := by
  rw [writeParts_sparse key _ offset incoming (by omega) h]
  simp [composeParts, evalPart]

/-! ### Claims about WriteStream -/

/-- C4: with an existing object and `offset == 0`, WriteStream builds
`[LocalBytes(incoming)]` followed by `[RemoteRange(key, writtenLength, -1)]` exactly
when `writtenLength < existingSize`; the composed object's first `writtenLength` bytes
are the incoming bytes and, when `writtenLength < existingSize`, the old bytes beyond
`writtenLength` are kept as the tail. -/
theorem writeStream_offset_zero (s : Store) (root p : GoStr) (ex incoming : List Nat)
    (hs : StoreSorted s) (hmem : (getKey root p, ex) ∈ s) :
    writeStream s root p 0 incoming =
      Except.ok (WriteAction.putParts (getKey root p)
        ([Part.localBytes incoming] ++
          (if (incoming.length : Int) < (ex.length : Int) then
            [Part.remoteRange (getKey root p) (incoming.length : Int) (-1)] else [])),
        (incoming.length : Int)) ∧
    (composeParts ex (writeParts (getKey root p) (ex.length : Int) 0 incoming)).take
        incoming.length = incoming ∧
    ((incoming.length : Int) < (ex.length : Int) →
      (composeParts ex (writeParts (getKey root p) (ex.length : Int) 0 incoming)).drop
          incoming.length = ex.drop incoming.length) := by
  refine ⟨?_, ?_, ?_⟩
  · simp [writeStream, stat_of_mem s root p ex hs hmem, writeStreamAux,
      writeParts_offset_zero]
  · rw [composeParts_offset_zero]
    by_cases h : (incoming.length : Int) < (ex.length : Int) <;>
      simp [h, List.take_left']
  · intro h
    rw [composeParts_offset_zero]
    simp [h, List.drop_left']

/-- C2 counterexample: an existing object of size 0 is present and
`offset == existingSize == 0`, yet WriteStream builds `[LocalBytes]` alone (the
`offset == 0` branch fires first), not the claimed `[RemoteRange(0,-1), LocalBytes]`. -/
theorem writeStream_append_counterexample :
    writeStream [(['a'], [])] [] ['/', 'a'] 0 [5] =
      Except.ok (WriteAction.putParts ['a'] [Part.localBytes [5]], 1) ∧
    writeStream [(['a'], [])] [] ['/', 'a'] 0 [5] ≠
      Except.ok (WriteAction.putParts ['a']
        [Part.remoteRange ['a'] 0 (-1), Part.localBytes [5]], 1) := by decide

/-- C2 (amended: existing object nonempty, so that `offset == existingSize` is not the
`offset == 0` case): a pure append builds exactly
`[RemoteRange(key, 0, -1), LocalBytes(incoming)]`, and the composed object is the prior
bytes followed by the incoming bytes, of total length
`existingSize + writtenLength`. -/
theorem writeStream_append (s : Store) (root p : GoStr) (ex incoming : List Nat)
    (hs : StoreSorted s) (hmem : (getKey root p, ex) ∈ s) (hne : ex ≠ []) :
    writeStream s root p (ex.length : Int) incoming =
      Except.ok (WriteAction.putParts (getKey root p)
        [Part.remoteRange (getKey root p) 0 (-1), Part.localBytes incoming],
        (incoming.length : Int)) ∧
    composeParts ex
        (writeParts (getKey root p) (ex.length : Int) (ex.length : Int) incoming) =
      ex ++ incoming ∧
    ((composeParts ex (writeParts (getKey root p) (ex.length : Int) (ex.length : Int)
        incoming)).length : Int) = (ex.length : Int) + (incoming.length : Int) := by
  have h0 : ((ex.length : Int)) ≠ 0 := by
    simp [List.length_eq_zero, hne]
  refine ⟨?_, composeParts_append _ _ _, ?_⟩
  · simp [writeStream, stat_of_mem s root p ex hs hmem, writeStreamAux,
      writeParts_append _ _ _ h0]
  · rw [composeParts_append]
    simp

/-- C1: with an existing object and `0 < offset < existingSize`, WriteStream builds
`[RemoteRange(key, 0, offset), LocalBytes(incoming)]` and appends
`[RemoteRange(key, offset + writtenLength, -1)]` exactly when
`offset + writtenLength < existingSize`; the composed object keeps bytes `[0, offset)`,
holds the incoming bytes at `[offset, offset + writtenLength)`, and keeps any old tail
beyond `offset + writtenLength`. -/
theorem writeStream_middle (s : Store) (root p : GoStr) (ex incoming : List Nat)
    (offset : Int) (hs : StoreSorted s) (hmem : (getKey root p, ex) ∈ s)
    (h1 : 0 < offset) (h2 : offset < (ex.length : Int)) :
    writeStream s root p offset incoming =
      Except.ok (WriteAction.putParts (getKey root p)
        ([Part.remoteRange (getKey root p) 0 offset, Part.localBytes incoming] ++
          (if (incoming.length : Int) + offset < (ex.length : Int) then
            [Part.remoteRange (getKey root p) ((incoming.length : Int) + offset) (-1)]
           else [])), (incoming.length : Int)) ∧
    (composeParts ex (writeParts (getKey root p) (ex.length : Int) offset
        incoming)).take offset.toNat = ex.take offset.toNat ∧
    ((composeParts ex (writeParts (getKey root p) (ex.length : Int) offset
        incoming)).drop offset.toNat).take incoming.length = incoming ∧
    (offset + (incoming.length : Int) < (ex.length : Int) →
      (composeParts ex (writeParts (getKey root p) (ex.length : Int) offset
          incoming)).drop (offset + (incoming.length : Int)).toNat =
        ex.drop (offset + (incoming.length : Int)).toNat) := by
  have htk : (ex.take offset.toNat).length = offset.toNat := by
    rw [List.length_take]
    omega
  refine ⟨?_, ?_, ?_, ?_⟩
  · simp [writeStream, stat_of_mem s root p ex hs hmem, writeStreamAux,
      writeParts_middle _ _ _ _ h1 h2]
  · rw [composeParts_middle _ _ _ _ h1 h2, List.append_assoc, List.take_left' htk]
  · rw [composeParts_middle _ _ _ _ h1 h2, List.append_assoc, List.drop_left' htk,
      List.take_left]
  · intro h
    have h3 : (incoming.length : Int) + offset < (ex.length : Int) := by omega
    have hlen : (ex.take offset.toNat ++ incoming).length =
        (offset + (incoming.length : Int)).toNat := by
      simp [htk]
      omega
    rw [composeParts_middle _ _ _ _ h1 h2, if_pos h3, List.drop_left' hlen,
      (by omega :
        (incoming.length : Int) + offset = offset + (incoming.length : Int))]

/-- C3: with an existing object and `offset > existingSize`, WriteStream builds exactly
`[RemoteRange(key, 0, -1), LocalBytes(offset - existingSize zero bytes),
LocalBytes(incoming)]`; the composed object is the prior bytes, then the zero-filled
gap, then the incoming bytes, of total length `offset + writtenLength`. -/
theorem writeStream_sparse (s : Store) (root p : GoStr) (ex incoming : List Nat)
    (offset : Int) (hs : StoreSorted s) (hmem : (getKey root p, ex) ∈ s)
    (hoff : (ex.length : Int) < offset) :
    writeStream s root p offset incoming =
      Except.ok (WriteAction.putParts (getKey root p)
        [Part.remoteRange (getKey root p) 0 (-1),
         Part.localBytes (List.replicate (offset - (ex.length : Int)).toNat 0),
         Part.localBytes incoming], (incoming.length : Int)) ∧
    composeParts ex (writeParts (getKey root p) (ex.length : Int) offset incoming) =
      ex ++ List.replicate (offset - (ex.length : Int)).toNat 0 ++ incoming ∧
    ((composeParts ex (writeParts (getKey root p) (ex.length : Int) offset
        incoming)).length : Int) = offset + (incoming.length : Int) := by
  refine ⟨?_, composeParts_sparse _ _ _ _ hoff, ?_⟩
  · simp [writeStream, stat_of_mem s root p ex hs hmem, writeStreamAux,
      writeParts_sparse _ _ _ _ (by omega) hoff]
  · rw [composeParts_sparse _ _ _ _ hoff]
    simp
    omega

/-- C5: a pre-write lookup that reports path-not-found (no stored key has the path's
key as a prefix) routes WriteStream to a whole-object upload of exactly the buffered
incoming bytes, for every offset, returning the consumed byte count; a lookup error
other than not-found is returned and prevents the write. -/
theorem writeStream_no_existing (s : Store) (root p : GoStr) (offset : Int)
    (incoming : List Nat)
    (h : ∀ q ∈ s, (getKey root p).isPrefixOf q.1 = false) :
    writeStream s root p offset incoming =
      Except.ok (WriteAction.putFile (getKey root p) incoming,
        (incoming.length : Int)) ∧
    (∀ e : Err, e ≠ Err.pathNotFound p →
      writeStreamAux (Except.error e) root p offset incoming = Except.error e) := by
  constructor
  · have hfil : s.filter (fun q => matchKey (getKey root p) [] q.1) = [] := by
      apply List.filter_eq_nil_iff.mpr
      intro a ha
      simp [matchKey, afterMarker, h a ha]
    simp [writeStream, stat, bucketList, hfil, writeStreamAux]
  · intro e he
    simp [writeStreamAux, he]

/-! ### Witnesses for the WriteStream claims -/

theorem writeStream_offset_zero_witness :
    writeStream [(['a'], [1, 2, 3])] [] ['/', 'a'] 0 [9] =
      Except.ok (WriteAction.putParts ['a']
        [Part.localBytes [9], Part.remoteRange ['a'] 1 (-1)], 1) := by
  have h := writeStream_offset_zero [(['a'], [1, 2, 3])] [] ['/', 'a'] [1, 2, 3] [9]
    (by decide) (by decide)
  exact h.1.trans (by decide)

theorem writeStream_append_witness :
    writeStream [(['a'], [1, 2])] [] ['/', 'a'] 2 [9] =
      Except.ok (WriteAction.putParts ['a']
        [Part.remoteRange ['a'] 0 (-1), Part.localBytes [9]], 1) := by
  have h := writeStream_append [(['a'], [1, 2])] [] ['/', 'a'] [1, 2] [9]
    (by decide) (by decide) (by decide)
  exact h.1.trans (by decide)

theorem writeStream_middle_witness :
    writeStream [(['a'], [1, 2, 3, 4])] [] ['/', 'a'] 1 [9] =
      Except.ok (WriteAction.putParts ['a']
        [Part.remoteRange ['a'] 0 1, Part.localBytes [9],
         Part.remoteRange ['a'] 2 (-1)], 1) := by
  have h := writeStream_middle [(['a'], [1, 2, 3, 4])] [] ['/', 'a'] [1, 2, 3, 4] [9] 1
    (by decide) (by decide) (by decide) (by decide)
  exact h.1.trans (by decide)

theorem writeStream_sparse_witness :
    writeStream [(['a'], [1, 2])] [] ['/', 'a'] 4 [9] =
      Except.ok (WriteAction.putParts ['a']
        [Part.remoteRange ['a'] 0 (-1), Part.localBytes [0, 0],
         Part.localBytes [9]], 1) := by
  have h := writeStream_sparse [(['a'], [1, 2])] [] ['/', 'a'] [1, 2] [9] 4
    (by decide) (by decide) (by decide)
  exact h.1.trans (by decide)

theorem writeStream_no_existing_witness :
    writeStream [(['z'], [1])] [] ['/', 'a'] 7 [5, 6] =
      Except.ok (WriteAction.putFile ['a'] [5, 6], 2) := by
  have h := writeStream_no_existing [(['z'], [1])] [] ['/', 'a'] 7 [5, 6] (by decide)
  exact h.1.trans (by decide)

/-! ### Stat's directory inference (C8) -/

/-- C8 counterexample: the only stored key `"ab"` shares the queried key `"a"` as a
character prefix with no separator in between, yet Stat reports a directory. -/
theorem stat_isDir_counterexample :
    stat [(['a', 'b'], [1])] [] ['/', 'a'] =
      Except.ok { path := ['/', 'a'], size := 0, isDir := true } ∧
    ¬ ∃ q ∈ ([((['a', 'b'] : GoStr), ([1] : List Nat))] : Store),
        q.1 ≠ getKey [] ['/', 'a'] ∧
        (getKey [] ['/', 'a'] ++ ['/']).isPrefixOf q.1 := by decide

/-- C8 (amended): Stat reports a directory exactly when the listing found some stored
key with the queried key as a character prefix (which is what `stat` succeeding
guarantees) while the exact key itself is absent; no path separator is consulted. -/
theorem stat_isDir_iff (s : Store) (root p : GoStr) (fi : FileInfo)
    (hs : StoreSorted s) (hok : stat s root p = Except.ok fi) :
    fi.isDir = true ↔
      ((∃ q ∈ s, (getKey root p).isPrefixOf q.1) ∧
        ∀ b : List Nat, (getKey root p, b) ∉ s) := by
  by_cases hmem : ∃ b : List Nat, (getKey root p, b) ∈ s
  · obtain ⟨b, hb⟩ := hmem
    rw [stat_of_mem s root p b hs hb] at hok
    have hfi := Except.ok.inj hok
    have hfalse : fi.isDir = false := by rw [← hfi]
    constructor
    · intro h
      rw [hfalse] at h
      cases h
    · rintro ⟨h1, hall⟩
      exact absurd hb (hall b)
  · rcases hF : s.filter (fun q => matchKey (getKey root p) [] q.1) with _ | ⟨q0, rest⟩
    · simp [stat, bucketList, hF] at hok
    · have hq0f : q0 ∈ s.filter (fun q => matchKey (getKey root p) [] q.1) := by
        rw [hF]; exact List.mem_cons_self q0 rest
      have hq0s : q0 ∈ s := List.mem_of_mem_filter hq0f
      have hq0m : matchKey (getKey root p) [] q0.1 = true :=
        (List.mem_filter.mp hq0f).2
      have hq0ne : q0.1 ≠ getKey root p := by
        intro he
        exact hmem ⟨q0.2, by rw [← he]; exact hq0s⟩
      have hbeq : (getKey root p == q0.1) = false :=
        beq_eq_false_iff_ne.mpr (Ne.symm hq0ne)
      have hstat : stat s root p =
          Except.ok { path := p, size := 0, isDir := true } := by
        simp [stat, bucketList, hF, mkItem, hbeq]
      rw [hstat] at hok
      have hfi := Except.ok.inj hok
      constructor
      · intro h1
        refine ⟨⟨q0, hq0s, ?_⟩, fun b hb => hmem ⟨b, hb⟩⟩
        simpa [matchKey, afterMarker] using hq0m
      · intro h1
        rw [← hfi]

theorem stat_isDir_iff_witness :
    ((⟨['/', 'a'], 0, true⟩ : FileInfo).isDir = true ↔
      ((∃ q ∈ ([((['a', 'b'] : GoStr), ([1] : List Nat))] : Store),
          (getKey [] ['/', 'a']).isPrefixOf q.1) ∧
        ∀ b : List Nat, (getKey [] ['/', 'a'], b) ∉
          ([((['a', 'b'] : GoStr), ([1] : List Nat))] : Store))) :=
  stat_isDir_iff [((['a', 'b'] : GoStr), ([1] : List Nat))] [] ['/', 'a'] _
    (by decide) (by decide)

/-! ### ReadStream (C9) -/

/-- In a store with pairwise-distinct keys, `find?` at a stored key returns its
entry. -/
theorem find?_eq_of_mem {s : Store} {k : GoStr} {b : List Nat}
    (hnd : (s.map (fun q => q.1)).Nodup) (hmem : (k, b) ∈ s) :
    s.find? (fun q => q.1 == k) = some (k, b) := by
  induction s with
  | nil => cases hmem
  | cons q tl ih =>
    rcases List.mem_cons.mp hmem with hq | htl
    · subst hq
      simp
    · have hknd := List.nodup_cons.mp hnd
      have hne : ¬((q.1 == k) = true) := by
        intro hbeq
        have he : q.1 = k := by simpa using hbeq
        have hk : q.1 ∈ tl.map (fun q => q.1) := by
          rw [he]
          exact List.mem_map.mpr ⟨(k, b), htl, rfl⟩
        exact hknd.1 hk
      rw [show List.find? (fun q => q.1 == k) (q :: tl) =
          List.find? (fun q => q.1 == k) tl from by simp [List.find?_cons, hne]]
      exact ih hknd.2 htl

/-- C9: for an existing object of size `S`, ReadStream returns an empty reader with no
error whenever `offset >= S`, and the ranged request against the remote store is issued
exactly when `offset < S`. -/
theorem readStream_offset_behavior (s : Store) (root p : GoStr) (offset : Int)
    (b : List Nat) (hnd : (s.map (fun q => q.1)).Nodup)
    (hmem : (getKey root p, b) ∈ s) :
    ((b.length : Int) ≤ offset →
      readStream s root p offset = Except.ok ReadResult.emptyReader) ∧
    (readStream s root p offset =
        Except.ok (ReadResult.rangeRequest (getKey root p) offset) ↔
      offset < (b.length : Int)) := by
  have hbs : bucketStat s (getKey root p) =
      Except.ok (mkItem (getKey root p, b)) := by
    simp [bucketStat, find?_eq_of_mem hnd hmem]
  constructor
  · intro h
    simp [readStream, hbs, mkItem]
    omega
  · constructor
    · intro h
      by_contra hlt
      simp [readStream, hbs, mkItem, (by omega : (b.length : Int) ≤ offset)] at h
    · intro h
      simp [readStream, hbs, mkItem, (by omega : ¬(offset ≥ (b.length : Int)))]
      omega

theorem readStream_offset_behavior_witness :
    readStream [(['a'], [1, 2])] [] ['/', 'a'] 5 = Except.ok ReadResult.emptyReader :=
  (readStream_offset_behavior [(['a'], [1, 2])] [] ['/', 'a'] 5 [1, 2] (by decide)
    (by decide)).1 (by decide)

/-! ### Move (C10) -/

theorem bucketMove_spec (sd : Store) (src dst : GoStr) (b : List Nat)
    (hnd : (sd.map (fun q => q.1)).Nodup) (hmem : (src, b) ∈ sd)
    (hdst : ∀ r ∈ sd, ¬(r.1 = dst)) :
    bucketMove sd src dst =
      Except.ok (sd.filter (fun r => !(r.1 == src)) ++ [(dst, b)]) := by
  have hany : sd.any (fun r => r.1 == dst) = false := by
    simp only [List.any_eq_false]
    intro r hr
    simpa using hdst r hr
  simp [bucketMove, find?_eq_of_mem hnd hmem, hany]

/-- C10: Move overwrites the destination — with the source object present it deletes
any existing destination and re-keys the source content to the destination (the
destination being absent is not an error, since nothing about the destination is
assumed); with the source object absent it returns path-not-found for the source path
(no store is produced, so nothing at the destination is touched). -/
theorem move_overwrites_dest (s : Store) (root src dst : GoStr) (b : List Nat)
    (hnd : (s.map (fun q => q.1)).Nodup)
    (hne : getKey root src ≠ getKey root dst) :
    (((getKey root src, b) ∈ s) → ∃ s2, move s root src dst = Except.ok s2 ∧
        (getKey root dst, b) ∈ s2 ∧ (∀ c : List Nat, (getKey root src, c) ∉ s2) ∧
        ∀ q ∈ s2, q = (getKey root dst, b) ∨ q ∈ s) ∧
    ((∀ c : List Nat, (getKey root src, c) ∉ s) →
      move s root src dst = Except.error (Err.pathNotFound src)) := by
  constructor
  · intro hmem
    have hbs : bucketStat s (getKey root src) =
        Except.ok (mkItem (getKey root src, b)) := by
      simp [bucketStat, find?_eq_of_mem hnd hmem]
    by_cases hany : s.any (fun r => r.1 == getKey root dst)
    · -- the destination exists and is deleted first
      have hsd : bucketDelete s (getKey root dst) =
          Except.ok (s.filter (fun q => !(q.1 == getKey root dst))) := by
        simp [bucketDelete, hany]
      have hndsd : ((s.filter (fun q => !(q.1 == getKey root dst))).map
          (fun q => q.1)).Nodup :=
        List.Nodup.sublist (List.Sublist.map _ (List.filter_sublist s)) hnd
      have hmemsd : (getKey root src, b) ∈
          s.filter (fun q => !(q.1 == getKey root dst)) := by
        rw [List.mem_filter]
        exact ⟨hmem, by simpa using hne⟩
      have hdstsd : ∀ r ∈ s.filter (fun q => !(q.1 == getKey root dst)),
          ¬(r.1 = getKey root dst) := by
        intro r hr
        simpa using (List.mem_filter.mp hr).2
      have hbm := bucketMove_spec _ _ _ b hndsd hmemsd hdstsd
      refine ⟨(s.filter (fun q => !(q.1 == getKey root dst))).filter
          (fun r => !(r.1 == getKey root src)) ++ [(getKey root dst, b)],
        ?_, ?_, ?_, ?_⟩
      · simp [move, hbs, hsd, hbm]
      · exact List.mem_append_right _ (List.mem_singleton.mpr rfl)
      · intro c hc
        rcases List.mem_append.mp hc with hc | hc
        · have := (List.mem_filter.mp hc).2
          simp at this
        · have := congrArg Prod.fst (List.mem_singleton.mp hc)
          exact hne this
      · intro q hq
        rcases List.mem_append.mp hq with hq | hq
        · exact Or.inr (List.mem_of_mem_filter (List.mem_of_mem_filter hq))
        · exact Or.inl (List.mem_singleton.mp hq)
    · -- the destination is absent: 612 is swallowed and the move proceeds from s
      have hsd : bucketDelete s (getKey root dst) =
          Except.error (Err.rpcError 612) := by
        simp [bucketDelete, hany]
      have hdsts : ∀ r ∈ s, ¬(r.1 = getKey root dst) := by
        intro r hr he
        rw [List.any_eq_true] at hany
        exact hany ⟨r, hr, by simpa using he⟩
      have hbm := bucketMove_spec s _ _ b hnd hmem hdsts
      refine ⟨s.filter (fun r => !(r.1 == getKey root src)) ++ [(getKey root dst, b)],
        ?_, ?_, ?_, ?_⟩
      · simp [move, hbs, hsd, isKeyNotExists, hbm]
      · exact List.mem_append_right _ (List.mem_singleton.mpr rfl)
      · intro c hc
        rcases List.mem_append.mp hc with hc | hc
        · have := (List.mem_filter.mp hc).2
          simp at this
        · have := congrArg Prod.fst (List.mem_singleton.mp hc)
          exact hne this
      · intro q hq
        rcases List.mem_append.mp hq with hq | hq
        · exact Or.inr (List.mem_of_mem_filter hq)
        · exact Or.inl (List.mem_singleton.mp hq)
  · intro habs
    have hf : s.find? (fun q => q.1 == getKey root src) = none := by
      rw [List.find?_eq_none]
      intro q hq hbeq
      have he : q.1 = getKey root src := by simpa using hbeq
      exact habs q.2 (by rw [← he]; exact hq)
    simp [move, bucketStat, hf, parseError, isKeyNotExists]

/-! ### Delete (C7) -/

theorem not_lt_nil (a : GoStr) : ¬ a < ([] : GoStr) := by
  intro h
  cases h

theorem goStr_contains_iff (l : List GoStr) (a : GoStr) :
    l.contains a = true ↔ a ∈ l :=
  List.elem_iff

theorem storeSorted_keys_nodup {s : Store} (hs : StoreSorted s) :
    (s.map (fun q => q.1)).Nodup := by
  have hp := List.Pairwise.map (fun q : GoStr × List Nat => q.1)
    (fun a b h => h) hs
  exact hp.imp (fun h => ne_of_lt h)

/-- The per-page loop of Delete removes exactly the listed keys when they are all
present and pairwise distinct. -/
theorem deletePage_eq : ∀ (ks : List GoStr) (s : Store),
    (∀ k ∈ ks, k ∈ s.map (fun q => q.1)) → ks.Nodup →
    deletePage s ks = Except.ok (s.filter (fun q => !(ks.contains q.1))) := by
  intro ks
  induction ks with
  | nil =>
    intro s hmem hnd
    simp [deletePage]
  | cons k rest ih =>
    intro s hmem hnd
    have hk : k ∈ s.map (fun q => q.1) := hmem k (List.mem_cons_self k rest)
    have hany : s.any (fun q => q.1 == k) = true := by
      rw [List.any_eq_true]
      obtain ⟨q, hq, hqk⟩ := List.mem_map.mp hk
      exact ⟨q, hq, by simp [hqk]⟩
    have hstep : bucketDelete s k =
        Except.ok (s.filter (fun q => !(q.1 == k))) := by
      simp [bucketDelete, hany]
    have hnd2 := List.nodup_cons.mp hnd
    have hmem2 : ∀ k2 ∈ rest,
        k2 ∈ (s.filter (fun q => !(q.1 == k))).map (fun q => q.1) := by
      intro k2 hk2
      obtain ⟨q, hq, hqk⟩ := List.mem_map.mp (hmem k2 (List.mem_cons_of_mem k hk2))
      refine List.mem_map.mpr ⟨q, List.mem_filter.mpr ⟨hq, ?_⟩, hqk⟩
      have hne : q.1 ≠ k := by
        rw [hqk]
        intro he
        exact hnd2.1 (he ▸ hk2)
      simp [hne]
    simp only [deletePage, hstep]
    rw [ih _ hmem2 hnd2.2, List.filter_filter]
    have hcg : s.filter (fun q => !(rest.contains q.1) && !(q.1 == k)) =
        s.filter (fun q => !((k :: rest).contains q.1)) := by
      apply List.filter_congr
      intro x hx
      simp only [List.contains_cons, Bool.not_or]
      rw [Bool.and_comm]
    rw [hcg]

/-- One truncated page of the Delete loop: removing the page and then everything beyond
its last key removes exactly everything the original listing serves. -/
theorem matchKey_page_split (s : Store) (pfx marker : GoStr) (limit : Nat)
    (hs : StoreSorted s) (h0 : 0 < limit)
    (hgt : limit < (s.filter (fun q => matchKey pfx marker q.1)).length)
    (q : GoStr × List Nat) (hq : q ∈ s) :
    (!((((s.filter (fun q => matchKey pfx marker q.1)).take limit).map
        (fun r => r.1)).contains q.1) &&
      !(matchKey pfx
        ((((s.filter (fun q => matchKey pfx marker q.1)).take limit).map
          (fun r => r.1)).getLastD []) q.1)) =
    !(matchKey pfx marker q.1) := by
  have hplen : ((s.filter (fun q => matchKey pfx marker q.1)).take limit).length
      = limit := by
    rw [List.length_take]
    omega
  have hpne : (s.filter (fun q => matchKey pfx marker q.1)).take limit ≠ [] := by
    intro he
    rw [he] at hplen
    simp at hplen
    omega
  have hpkne : ((s.filter (fun q => matchKey pfx marker q.1)).take limit).map
      (fun r => r.1) ≠ [] := by
    simpa using hpne
  have hm2 : ((((s.filter (fun q => matchKey pfx marker q.1)).take limit).map
      (fun r => r.1)).getLastD []) =
      (((s.filter (fun q => matchKey pfx marker q.1)).take limit).getLast hpne).1 := by
    rw [List.getLastD_eq_getLast?, List.getLast?_eq_getLast _ hpkne, Option.getD_some,
      List.getLast_map]
  have hlast_mem := List.getLast_mem hpne
  have pairM : List.Pairwise (fun a b : GoStr × List Nat => a.1 < b.1)
      (s.filter (fun q => matchKey pfx marker q.1)) :=
    List.Pairwise.filter _ hs
  have pairTD : List.Pairwise (fun a b : GoStr × List Nat => a.1 < b.1)
      ((s.filter (fun q => matchKey pfx marker q.1)).take limit ++
        (s.filter (fun q => matchKey pfx marker q.1)).drop limit) := by
    rw [List.take_append_drop]
    exact pairM
  have hcross := (List.pairwise_append.mp pairTD).2.2
  have hlastM : ((s.filter (fun q => matchKey pfx marker q.1)).take limit).getLast
      hpne ∈ s.filter (fun q => matchKey pfx marker q.1) :=
    List.mem_of_mem_take hlast_mem
  have hlast_match : matchKey pfx marker
      ((((s.filter (fun q => matchKey pfx marker q.1)).take limit).getLast hpne)).1 =
      true := (List.mem_filter.mp hlastM).2
  rw [hm2]
  by_cases hA : matchKey pfx marker q.1 = true
  · have hqM : q ∈ s.filter (fun q => matchKey pfx marker q.1) :=
      List.mem_filter.mpr ⟨hq, hA⟩
    have hqTD : q ∈ (s.filter (fun q => matchKey pfx marker q.1)).take limit ++
        (s.filter (fun q => matchKey pfx marker q.1)).drop limit := by
      rw [List.take_append_drop]
      exact hqM
    rcases List.mem_append.mp hqTD with hqp | hqd
    · have hmm : q.1 ∈ ((s.filter (fun q => matchKey pfx marker q.1)).take
          limit).map (fun r => r.1) := List.mem_map.mpr ⟨q, hqp, rfl⟩
      have hc : (((s.filter (fun q => matchKey pfx marker q.1)).take limit).map
          (fun r => r.1)).contains q.1 = true := (goStr_contains_iff _ _).mpr hmm
      rw [hA, hc]
      rfl
    · have hm2q : ((((s.filter (fun q => matchKey pfx marker q.1)).take
          limit).getLast hpne)).1 < q.1 := hcross _ hlast_mem q hqd
      have hpfx : pfx.isPrefixOf q.1 = true := by
        have h1 := hA
        simp only [matchKey, Bool.and_eq_true] at h1
        exact h1.1
      have hmk : matchKey pfx
          ((((s.filter (fun q => matchKey pfx marker q.1)).take limit).getLast
            hpne)).1 q.1 = true := by
        simp only [matchKey, afterMarker, hpfx, Bool.true_and, Bool.or_eq_true,
          decide_eq_true_eq]
        exact Or.inr hm2q
      rw [hA, hmk]
      simp
  · have hA2 : matchKey pfx marker q.1 = false := by
      simpa using hA
    have hc : (((s.filter (fun q => matchKey pfx marker q.1)).take limit).map
        (fun r => r.1)).contains q.1 = false := by
      by_contra hcc
      have hct : (((s.filter (fun q => matchKey pfx marker q.1)).take limit).map
          (fun r => r.1)).contains q.1 = true := by
        simpa using hcc
      obtain ⟨q2, hq2, hq21⟩ := List.mem_map.mp ((goStr_contains_iff _ _).mp hct)
      have hq2M : q2 ∈ s.filter (fun q => matchKey pfx marker q.1) :=
        List.mem_of_mem_take hq2
      have hq2m : matchKey pfx marker q2.1 = true := (List.mem_filter.mp hq2M).2
      rw [hq21] at hq2m
      rw [hq2m] at hA2
      cases hA2
    have hmk2 : matchKey pfx
        ((((s.filter (fun q => matchKey pfx marker q.1)).take limit).getLast
          hpne)).1 q.1 = false := by
      by_cases hpfx : pfx.isPrefixOf q.1 = true
      · have ham : afterMarker marker q.1 = false := by
          rcases hh : afterMarker marker q.1 with _ | _
          · rfl
          · rw [matchKey, hpfx, hh] at hA2
            cases hA2
        have hmne : marker.isEmpty = false := by
          rcases hh : marker.isEmpty with _ | _
          · rfl
          · rw [afterMarker, hh] at ham
            cases ham
        have hnlt : ¬ (marker < q.1) := by
          intro hlt
          rw [afterMarker, hmne] at ham
          simp [hlt] at ham
        have hq_le : q.1 ≤ marker := le_of_not_lt hnlt
        have hlam : afterMarker marker
            ((((s.filter (fun q => matchKey pfx marker q.1)).take limit).getLast
              hpne)).1 = true := by
          have h1 := hlast_match
          simp only [matchKey, Bool.and_eq_true] at h1
          exact h1.2
        have hmarker_lt : marker <
            ((((s.filter (fun q => matchKey pfx marker q.1)).take limit).getLast
              hpne)).1 := by
          rw [afterMarker, hmne] at hlam
          simpa using hlam
        have hqm2 : q.1 <
            ((((s.filter (fun q => matchKey pfx marker q.1)).take limit).getLast
              hpne)).1 := lt_of_le_of_lt hq_le hmarker_lt
        have hm2nenil : ((((s.filter (fun q => matchKey pfx marker q.1)).take
            limit).getLast hpne)).1 ≠ [] := by
          intro he
          rw [he] at hqm2
          exact not_lt_nil _ hqm2
        have hm2isEmpty : ((((s.filter (fun q => matchKey pfx marker q.1)).take
            limit).getLast hpne)).1.isEmpty = false := by
          rcases hh : ((((s.filter (fun q => matchKey pfx marker q.1)).take
              limit).getLast hpne)).1.isEmpty with _ | _
          · exact hh
          · exact absurd (List.isEmpty_iff.mp hh) hm2nenil
        rw [matchKey, afterMarker, hpfx, hm2isEmpty]
        simp [lt_asymm hqm2]
      · rw [matchKey]
        simp [hpfx]
    rw [hA2, hc, hmk2]
    rfl

/-- The paginated Delete loop, characterized: with enough fuel it reports
path-not-found when the count stays zero and nothing matches, and otherwise removes
exactly the keys the listing serves. -/
theorem deleteLoop_eq : ∀ (fuel : Nat) (s : Store) (p pfx marker : GoStr) (cnt : Nat),
    StoreSorted s → s.length < fuel →
    deleteLoop fuel s p pfx marker cnt =
      (if cnt = 0 ∧ s.filter (fun q => matchKey pfx marker q.1) = [] then
        some (Except.error (Err.pathNotFound p))
      else some (Except.ok (s.filter (fun q => !(matchKey pfx marker q.1))))) := by
  intro fuel
  induction fuel with
  | zero =>
    intro s p pfx marker cnt hs hlen
    omega
  | succ fuel ih =>
    intro s p pfx marker cnt hs hlen
    by_cases hM0 : s.filter (fun q => matchKey pfx marker q.1) = []
    · have hbl : bucketList s pfx marker listMax = ([], []) := by
        simp [bucketList, hM0, listMax]
      by_cases hcnt : cnt = 0
      · simp [deleteLoop, hbl, hcnt, hM0]
      · have hself : s.filter (fun q => !(matchKey pfx marker q.1)) = s := by
          rw [List.filter_eq_self]
          intro a ha
          have := List.filter_eq_nil_iff.mp hM0 a ha
          simpa using this
        simp [deleteLoop, hbl, hcnt, hM0, deletePage, hself]
    · by_cases hle : (s.filter (fun q => matchKey pfx marker q.1)).length ≤ listMax
      · -- everything fits on one final page
        have hbl : bucketList s pfx marker listMax =
            ((s.filter (fun q => matchKey pfx marker q.1)).map mkItem, []) := by
          simp [bucketList, List.take_of_length_le hle, hle]
        have hkeys : ((s.filter (fun q => matchKey pfx marker q.1)).map
            mkItem).map ListItem.key =
            (s.filter (fun q => matchKey pfx marker q.1)).map (fun r => r.1) := by
          simp [List.map_map, Function.comp, mkItem]
        have hdmem : ∀ k ∈ (s.filter (fun q => matchKey pfx marker q.1)).map
            (fun r => r.1), k ∈ s.map (fun q => q.1) := by
          intro k hk
          obtain ⟨q, hq, hqk⟩ := List.mem_map.mp hk
          exact List.mem_map.mpr ⟨q, List.mem_of_mem_filter hq, hqk⟩
        have hdnd : ((s.filter (fun q => matchKey pfx marker q.1)).map
            (fun r => r.1)).Nodup :=
          List.Nodup.sublist (List.Sublist.map _ (List.filter_sublist s))
            (storeSorted_keys_nodup hs)
        have hdp := deletePage_eq _ s hdmem hdnd
        have hcont : ∀ q ∈ s,
            (((s.filter (fun q => matchKey pfx marker q.1)).map
              (fun r => r.1)).contains q.1) = matchKey pfx marker q.1 := by
          intro q hq
          rcases hA : matchKey pfx marker q.1 with _ | _
          · rcases hcc : ((s.filter (fun q => matchKey pfx marker q.1)).map
                (fun r => r.1)).contains q.1 with _ | _
            · exact hcc
            · exfalso
              obtain ⟨q2, hq2, hq21⟩ :=
                List.mem_map.mp ((goStr_contains_iff _ _).mp hcc)
              have hq2m : matchKey pfx marker q2.1 = true :=
                (List.mem_filter.mp hq2).2
              rw [hq21, hA] at hq2m
              cases hq2m
          · have hqM : q ∈ s.filter (fun q => matchKey pfx marker q.1) :=
              List.mem_filter.mpr ⟨hq, hA⟩
            exact (goStr_contains_iff _ _).mpr (List.mem_map.mpr ⟨q, hqM, rfl⟩)
        have hfin : s.filter (fun q =>
            !(((s.filter (fun q => matchKey pfx marker q.1)).map
              (fun r => r.1)).contains q.1)) =
            s.filter (fun q => !(matchKey pfx marker q.1)) := by
          apply List.filter_congr
          intro x hx
          rw [hcont x hx]
        have hcnt2 : ¬ (cnt + ((s.filter (fun q => matchKey pfx marker q.1)).map
            mkItem).length = 0) := by
          simp only [List.length_map]
          have hne : (s.filter (fun q => matchKey pfx marker q.1)).length ≠ 0 := by
            simpa [List.length_eq_zero] using hM0
          omega
        rw [if_neg (show ¬(cnt = 0 ∧
            s.filter (fun q => matchKey pfx marker q.1) = []) from
          fun hand => hM0 hand.2)]
        simp only [deleteLoop, hbl]
        rw [if_neg hcnt2, hkeys, hdp]
        simp only [hfin]
        rfl
      · -- a truncated page: recurse past its last key
        push_neg at hle
        have hplen : ((s.filter (fun q => matchKey pfx marker q.1)).take
            listMax).length = listMax := by
          rw [List.length_take]
          omega
        have hbl : bucketList s pfx marker listMax =
            (((s.filter (fun q => matchKey pfx marker q.1)).take listMax).map mkItem,
             (((s.filter (fun q => matchKey pfx marker q.1)).take listMax).map
               (fun q => q.1)).getLastD []) := by
          simp only [bucketList]
          rw [if_neg (by omega)]
        have hkeys : (((s.filter (fun q => matchKey pfx marker q.1)).take
            listMax).map mkItem).map ListItem.key =
            ((s.filter (fun q => matchKey pfx marker q.1)).take listMax).map
              (fun r => r.1) := by
          rw [List.map_map]
          rfl
        have hdmem : ∀ k ∈ ((s.filter (fun q => matchKey pfx marker q.1)).take
            listMax).map (fun r => r.1), k ∈ s.map (fun q => q.1) := by
          intro k hk
          obtain ⟨q, hq, hqk⟩ := List.mem_map.mp hk
          exact List.mem_map.mpr
            ⟨q, List.mem_of_mem_filter (List.mem_of_mem_take hq), hqk⟩
        have hdnd : (((s.filter (fun q => matchKey pfx marker q.1)).take
            listMax).map (fun r => r.1)).Nodup :=
          List.Nodup.sublist
            (List.Sublist.map _
              ((List.take_sublist _ _).trans (List.filter_sublist s)))
            (storeSorted_keys_nodup hs)
        have hdp := deletePage_eq _ s hdmem hdnd
        -- the page is nonempty and its last key is not the empty string
        have hpne : (s.filter (fun q => matchKey pfx marker q.1)).take listMax
            ≠ [] := by
          intro he
          rw [he] at hplen
          simp [listMax] at hplen
        have hpkne : ((s.filter (fun q => matchKey pfx marker q.1)).take
            listMax).map (fun q => q.1) ≠ [] := by
          simpa using hpne
        have hm2 : ((((s.filter (fun q => matchKey pfx marker q.1)).take
            listMax).map (fun q => q.1)).getLastD []) =
            (((s.filter (fun q => matchKey pfx marker q.1)).take listMax).getLast
              hpne).1 := by
          rw [List.getLastD_eq_getLast?, List.getLast?_eq_getLast _ hpkne,
            Option.getD_some, List.getLast_map]
        have hm2ne : ((((s.filter (fun q => matchKey pfx marker q.1)).take
            listMax).map (fun q => q.1)).getLastD []) ≠ [] := by
          rw [hm2]
          have hpair_page : List.Pairwise (fun a b : GoStr × List Nat => a.1 < b.1)
              ((s.filter (fun q => matchKey pfx marker q.1)).take listMax) :=
            List.Pairwise.sublist (List.take_sublist _ _)
              (List.Pairwise.filter _ hs)
          rcases hpg : (s.filter (fun q => matchKey pfx marker q.1)).take listMax
            with _ | ⟨e0, ptl⟩
          · exact absurd hpg hpne
          · have hptl : ptl ≠ [] := by
              intro he
              rw [hpg, he] at hplen
              simp [listMax] at hplen
            rw [List.getLast_congr _ _ hpg, List.getLast_cons hptl]
            have hmem := List.getLast_mem hptl
            have hlt : e0.1 < (ptl.getLast hptl).1 := by
              rw [hpg] at hpair_page
              exact (List.pairwise_cons.mp hpair_page).1 _ hmem
            intro he
            rw [he] at hlt
            exact not_lt_nil _ hlt
        have hcnt2 : ¬ (cnt + (((s.filter (fun q => matchKey pfx marker q.1)).take
            listMax).map mkItem).length = 0) := by
          simp only [List.length_map, hplen]
          simp only [listMax]
          omega
        -- the store after the page deletion
        have hs2 : StoreSorted (s.filter (fun q =>
            !((((s.filter (fun q => matchKey pfx marker q.1)).take listMax).map
              (fun r => r.1)).contains q.1))) := List.Pairwise.filter _ hs
        have hlt2 : (s.filter (fun q =>
            !((((s.filter (fun q => matchKey pfx marker q.1)).take listMax).map
              (fun r => r.1)).contains q.1))).length < s.length := by
          rw [List.length_filter_lt_length_iff_exists]
          refine ⟨((s.filter (fun q => matchKey pfx marker q.1)).take
            listMax).getLast hpne,
            List.mem_of_mem_filter (List.mem_of_mem_take (List.getLast_mem hpne)),
            ?_⟩
          have hcm : (((s.filter (fun q => matchKey pfx marker q.1)).take
              listMax).map (fun r => r.1)).contains
              ((((s.filter (fun q => matchKey pfx marker q.1)).take
                listMax).getLast hpne)).1 = true :=
            (goStr_contains_iff _ _).mpr
              (List.mem_map.mpr ⟨_, List.getLast_mem hpne, rfl⟩)
          simp only [hcm, Bool.not_true]
          decide
        have hrec := ih (s.filter (fun q =>
            !((((s.filter (fun q => matchKey pfx marker q.1)).take listMax).map
              (fun r => r.1)).contains q.1))) p pfx
          ((((s.filter (fun q => matchKey pfx marker q.1)).take listMax).map
            (fun q => q.1)).getLastD [])
          (cnt + (((s.filter (fun q => matchKey pfx marker q.1)).take
            listMax).map mkItem).length) hs2 (by omega)
        have hcntpos : ¬ ((cnt + (((s.filter (fun q => matchKey pfx marker
            q.1)).take listMax).map mkItem).length = 0) ∧
            (s.filter (fun q =>
              !((((s.filter (fun q => matchKey pfx marker q.1)).take listMax).map
                (fun r => r.1)).contains q.1))).filter
              (fun q => matchKey pfx
                ((((s.filter (fun q => matchKey pfx marker q.1)).take listMax).map
                  (fun q => q.1)).getLastD []) q.1) = []) := by
          intro hand
          exact hcnt2 hand.1
        have hfin : (s.filter (fun q =>
            !((((s.filter (fun q => matchKey pfx marker q.1)).take listMax).map
              (fun r => r.1)).contains q.1))).filter
            (fun q => !(matchKey pfx
              ((((s.filter (fun q => matchKey pfx marker q.1)).take listMax).map
                (fun q => q.1)).getLastD []) q.1)) =
            s.filter (fun q => !(matchKey pfx marker q.1)) := by
          rw [List.filter_filter]
          apply List.filter_congr
          intro x hx
          rw [Bool.and_comm]
          exact matchKey_page_split s pfx marker listMax hs
            (by simp [listMax]) hle x hx
        rw [if_neg (show ¬(cnt = 0 ∧
            s.filter (fun q => matchKey pfx marker q.1) = []) from
          fun hand => hM0 hand.2)]
        simp only [deleteLoop, hbl]
        rw [if_neg hcnt2, hkeys, hdp]
        simp only [if_neg hm2ne]
        rw [hrec, if_neg hcntpos, hfin]

/-- C7: Delete on a path with no matching stored keys reports path-not-found rather
than succeeding, and on a path with at least one matching key it removes every key
having the path's key as a prefix, across all result pages, and succeeds. -/
theorem delete_spec (s : Store) (root p : GoStr) (hs : StoreSorted s) :
    ((∀ q ∈ s, ¬((getKey root p).isPrefixOf q.1 = true)) →
      delete s root p = some (Except.error (Err.pathNotFound p))) ∧
    ((∃ q ∈ s, (getKey root p).isPrefixOf q.1 = true) →
      delete s root p =
        some (Except.ok (s.filter (fun q =>
          !((getKey root p).isPrefixOf q.1))))) := by
  have hloop := deleteLoop_eq (s.length + 1) s p (getKey root p) [] 0 hs (by omega)
  have hmk : ∀ q : GoStr × List Nat,
      matchKey (getKey root p) [] q.1 = (getKey root p).isPrefixOf q.1 := by
    intro q
    simp [matchKey, afterMarker]
  constructor
  · intro h
    show deleteLoop (s.length + 1) s p (getKey root p) [] 0 = _
    rw [hloop, if_pos]
    exact ⟨rfl, List.filter_eq_nil_iff.mpr (fun a ha => by
      rw [hmk a]
      exact h a ha)⟩
  · rintro ⟨q, hq, hpre⟩
    show deleteLoop (s.length + 1) s p (getKey root p) [] 0 = _
    rw [hloop, if_neg]
    · have hcg : s.filter (fun q => !(matchKey (getKey root p) [] q.1)) =
          s.filter (fun q => !((getKey root p).isPrefixOf q.1)) := by
        apply List.filter_congr
        intro x hx
        rw [hmk x]
      rw [hcg]
    · rintro ⟨h1, h2⟩
      have := List.filter_eq_nil_iff.mp h2 q hq
      rw [hmk q] at this
      exact this hpre

theorem delete_spec_witness :
    delete [(['a'], [1])] [] ['/', 'a'] = some (Except.ok []) := by
  have h := (delete_spec [(['a'], [1])] [] ['/', 'a'] (by decide)).2 (by decide)
  exact h.trans (by decide)

/-! ### List (C6) -/

theorem isEmpty_false_of_ne_nil {l : GoStr} (h : l ≠ []) : l.isEmpty = false := by
  cases l with
  | nil => exact absurd rfl h
  | cons a t => rfl

theorem getKey_eq_append (root q : GoStr) (h : getKey root [] ≠ []) :
    getKey root q = getKey root [] ++ q := by
  have h0 : getKey root [] = root.dropWhile (fun c => c = '/') := by
    simp [getKey, trimLeftSlash]
  have hne : (root.dropWhile (fun c => c = '/')).isEmpty = false :=
    isEmpty_false_of_ne_nil (by rw [← h0]; exact h)
  show (root ++ q).dropWhile (fun c => c = '/') = getKey root [] ++ q
  rw [List.dropWhile_append, hne]
  simp [h0]

theorem replaceFirst_of_prefix (s old nw : GoStr) (h : old.isPrefixOf s = true) :
    replaceFirst s old nw = nw ++ s.drop old.length := by
  cases s with
  | nil => simp [replaceFirst, h]
  | cons c rest => simp [replaceFirst, h]

theorem trimSuffixSlash_concat (x : GoStr) : trimSuffixSlash (x ++ ['/']) = x := by
  simp [trimSuffixSlash, List.getLast?_concat, List.dropLast_concat]

theorem validPath_head {u : GoStr} (h : ValidPath u) : ∃ t, u = '/' :: t := by
  obtain ⟨segs, hne, hseg, rfl⟩ := h
  cases segs with
  | nil => exact absurd rfl hne
  | cons t0 rest =>
    exact ⟨t0 ++ rest.flatMap (fun t => '/' :: t), by simp⟩

theorem flatMap_getLast_ne_slash : ∀ (segs : List GoStr),
    (∀ t ∈ segs, t ≠ [] ∧ '/' ∉ t) →
    ∀ c, (segs.flatMap (fun t => '/' :: t)).getLast? = some c → c ≠ '/' := by
  intro segs
  induction segs with
  | nil =>
    intro hseg c hc
    simp at hc
  | cons t0 rest ih =>
    intro hseg c hc
    by_cases hr : rest = []
    · subst hr
      have ht0 := hseg t0 (List.mem_cons_self _ _)
      rw [List.flatMap_cons, List.flatMap_nil, List.append_nil] at hc
      cases ht : t0 with
      | nil => exact absurd ht ht0.1
      | cons x xs =>
        rw [ht, List.getLast?_cons_cons] at hc
        have hcm : c ∈ x :: xs := List.mem_of_mem_getLast? hc
        intro he
        rw [he] at hcm
        exact ht0.2 (by rw [ht]; exact hcm)
    · have hfne : rest.flatMap (fun t => '/' :: t) ≠ [] := by
        cases rest with
        | nil => exact absurd rfl hr
        | cons t1 r2 => simp [List.flatMap_cons]
      rw [List.flatMap_cons, List.getLast?_append,
        List.getLast?_eq_getLast _ hfne] at hc
      have hxc : (rest.flatMap (fun t => '/' :: t)).getLast hfne = c :=
        Option.some.inj hc
      exact ih (fun t ht => hseg t (List.mem_cons_of_mem _ ht)) c
        (by rw [List.getLast?_eq_getLast _ hfne, hxc])

theorem validPath_getLast {u : GoStr} (h : ValidPath u) :
    ∀ c, u.getLast? = some c → c ≠ '/' := by
  obtain ⟨segs, hne, hseg, rfl⟩ := h
  exact flatMap_getLast_ne_slash segs hseg

theorem validPath_ne_slash {u : GoStr} (h : ValidPath u) : u ≠ ['/'] := by
  intro he
  exact validPath_getLast h '/' (by rw [he]; rfl) rfl

theorem chain_of_no_slash : ∀ (l : GoStr), '/' ∉ l →
    List.Chain' (fun a b : Char => ¬(a = '/' ∧ b = '/')) l := by
  intro l
  induction l with
  | nil => intro h; exact List.chain'_nil
  | cons c cs ih =>
    intro h
    rw [List.chain'_cons']
    refine ⟨?_, ih (fun hm => h (List.mem_cons_of_mem _ hm))⟩
    intro y hy hand
    exact h (by rw [← hand.1]; exact List.mem_cons_self _ _)

theorem chain_no_double_slash : ∀ (segs : List GoStr),
    (∀ t ∈ segs, t ≠ [] ∧ '/' ∉ t) →
    List.Chain' (fun a b : Char => ¬(a = '/' ∧ b = '/'))
      (segs.flatMap (fun t => '/' :: t)) := by
  intro segs
  induction segs with
  | nil => intro hseg; simp
  | cons t0 rest ih =>
    intro hseg
    have ht0 := hseg t0 (List.mem_cons_self _ _)
    rw [List.flatMap_cons, List.chain'_append]
    refine ⟨?_, ih (fun t ht => hseg t (List.mem_cons_of_mem _ ht)), ?_⟩
    · rw [List.chain'_cons']
      refine ⟨?_, chain_of_no_slash t0 ht0.2⟩
      intro y hy hand
      have hym : y ∈ t0 := List.mem_of_mem_head? hy
      exact ht0.2 (hand.2 ▸ hym)
    · intro x hx y hy hand
      cases ht : t0 with
      | nil => exact absurd ht ht0.1
      | cons a as =>
        rw [ht, List.getLast?_cons_cons] at hx
        have hxm : x ∈ a :: as := List.mem_of_mem_getLast? hx
        exact ht0.2 (by rw [ht, ← hand.1]; exact hxm)

theorem validPath_no_double_slash {u : GoStr} (h : ValidPath u) (a b : GoStr) :
    u ≠ a ++ '/' :: '/' :: b := by
  obtain ⟨segs, hne, hseg, rfl⟩ := h
  intro he
  have hch := chain_no_double_slash segs hseg
  rw [he] at hch
  have hinf : ['/', '/'] <:+: a ++ '/' :: '/' :: b := ⟨a, b, by simp⟩
  exact (List.chain'_pair.mp ( List.Chain'.infix hch hinf)) ⟨rfl, rfl⟩

theorem head_dropWhile_ne_slash : ∀ (l : GoStr) (c : Char),
    (l.dropWhile (fun x => x = '/')).head? = some c → ¬(c = '/') := by
  intro l
  induction l with
  | nil =>
    intro c hc
    simp at hc
  | cons a t ih =>
    intro c hc
    by_cases ha : a = '/'
    · rw [List.dropWhile_cons_of_pos (by simp [ha])] at hc
      exact ih c hc
    · rw [List.dropWhile_cons_of_neg (by simp [ha])] at hc
      simp at hc
      rw [← hc]
      exact ha

theorem rootKey_stripped (root : GoStr) (hroot : getKey root [] ≠ [])
    (e t : GoStr) (he : e = '/' :: t) :
    ¬((getKey root []).isPrefixOf e = true) := by
  subst he
  intro hpre
  rw [List.isPrefixOf_iff_prefix] at hpre
  obtain ⟨r2, hr2⟩ := hpre
  have h0 : getKey root [] = root.dropWhile (fun c => c = '/') := by
    simp [getKey, trimLeftSlash]
  cases hk : getKey root [] with
  | nil => exact hroot hk
  | cons c cs =>
    have hc : c = '/' := by
      rw [hk] at hr2
      have := congrArg List.head? hr2
      simpa using this
    have hhead : (root.dropWhile (fun x => x = '/')).head? = some c := by
      rw [← h0, hk]
      rfl
    exact head_dropWhile_ne_slash root c hhead hc

/-- The shared core of the List claim, for a query key ending in a slash: every entry
of either kind (file or rolled-up directory) starts with a slash, does not end with
one, and does not retain the configured root key as a prefix. -/
theorem list_entry_core (s : Store) (root p2 : GoStr)
    (hroot : getKey root [] ≠ [])
    (hstore : ∀ q ∈ s, ∃ u, ValidPath u ∧ q.1 = getKey root u)
    (hp2s : ∃ t2, p2 = '/' :: t2)
    (hp2e : ∃ p2h, p2 = p2h ++ ['/'])
    (e : GoStr)
    (he : e ∈ ((bucketListDelim s (getKey root p2)).1.map
        (fun it => replaceFirst it.key (getKey root []) [])) ++
      ((bucketListDelim s (getKey root p2)).2.map
        (fun g => replaceFirst (trimSuffixSlash g) (getKey root []) []))) :
    ¬((getKey root []).isPrefixOf e = true) ∧ (∃ t, e = '/' :: t) ∧
      (∀ c, e.getLast? = some c → c ≠ '/') := by
  obtain ⟨t2, hp2s⟩ := hp2s
  obtain ⟨p2h, hp2e⟩ := hp2e
  rcases List.mem_append.mp he with hf | hd
  · -- a file entry: it is exactly the stored client path
    obtain ⟨it, hit, rfl⟩ := List.mem_map.mp hf
    simp only [bucketListDelim] at hit
    obtain ⟨q, hq, rfl⟩ := List.mem_map.mp hit
    have hq1 := (List.mem_filter.mp hq).1
    have hqs : q ∈ s := (List.mem_filter.mp hq1).1
    have hpre : (getKey root p2).isPrefixOf q.1 = true := (List.mem_filter.mp hq1).2
    obtain ⟨u, hu, hqu⟩ := hstore q hqs
    have hrep : replaceFirst (mkItem q).key (getKey root []) [] = u := by
      show replaceFirst q.1 (getKey root []) [] = u
      rw [hqu, getKey_eq_append root u hroot,
        replaceFirst_of_prefix _ _ _ (List.isPrefixOf_iff_prefix.mpr ⟨u, rfl⟩),
        List.nil_append, List.drop_left]
    rw [hrep]
    obtain ⟨t, ht⟩ := validPath_head hu
    exact ⟨rootKey_stripped root hroot u t ht, ⟨t, ht⟩, validPath_getLast hu⟩
  · -- a rolled-up directory entry: the queried path plus one further segment
    obtain ⟨g, hg, rfl⟩ := List.mem_map.mp hd
    simp only [bucketListDelim] at hg
    rw [List.mem_dedup] at hg
    obtain ⟨k, hk, rfl⟩ := List.mem_map.mp hg
    have hk1 := (List.mem_filter.mp hk).1
    have hkslash : ((k.drop (getKey root p2).length).contains '/') = true :=
      (List.mem_filter.mp hk).2
    obtain ⟨q, hq, hqk⟩ := List.mem_map.mp hk1
    have hqs : q ∈ s := (List.mem_filter.mp hq).1
    have hpre : (getKey root p2).isPrefixOf q.1 = true := (List.mem_filter.mp hq).2
    obtain ⟨u, hu, hqu⟩ := hstore q hqs
    have hpre2 : p2 <+: u := by
      rw [List.isPrefixOf_iff_prefix, hqu, getKey_eq_append root u hroot,
        getKey_eq_append root p2 hroot] at hpre
      exact (List.prefix_append_right_inj _).mp hpre
    obtain ⟨rest, hrest⟩ := hpre2
    have hdrop : k.drop (getKey root p2).length = rest := by
      rw [← hqk, hqu, ← hrest, getKey_eq_append root (p2 ++ rest) hroot,
        getKey_eq_append root p2 hroot, ← List.append_assoc, List.drop_left]
    have hrne : rest ≠ [] := by
      intro hre
      rw [hdrop, hre] at hkslash
      cases hkslash
    cases hrest_eq : rest with
    | nil => exact absurd hrest_eq hrne
    | cons c0 r2 =>
      have hc0 : ¬(c0 = '/') := by
        intro hc0
        apply validPath_no_double_slash hu p2h r2
        rw [← hrest, hrest_eq, hc0, hp2e]
        simp
      have hseg : (k.drop (getKey root p2).length).takeWhile
          (fun c => !(c == '/')) = c0 :: r2.takeWhile (fun c => !(c == '/')) := by
        rw [hdrop, hrest_eq, List.takeWhile_cons_of_pos (by simp [hc0])]
      have hrep : replaceFirst (trimSuffixSlash (getKey root p2 ++
          (k.drop (getKey root p2).length).takeWhile (fun c => !(c == '/')) ++
          ['/'])) (getKey root []) [] =
          p2 ++ (c0 :: r2.takeWhile (fun c => !(c == '/'))) := by
        rw [hseg, trimSuffixSlash_concat, getKey_eq_append root p2 hroot,
          List.append_assoc,
          replaceFirst_of_prefix _ _ _ (List.isPrefixOf_iff_prefix.mpr ⟨_, rfl⟩),
          List.nil_append, List.drop_left]
      rw [hrep]
      refine ⟨?_, ?_, ?_⟩
      · exact rootKey_stripped root hroot _
          (t2 ++ (c0 :: r2.takeWhile (fun c => !(c == '/'))))
          (by rw [hp2s]; rfl)
      · exact ⟨t2 ++ (c0 :: r2.takeWhile (fun c => !(c == '/'))),
          by rw [hp2s]; rfl⟩
      · intro c hc
        rw [List.getLast?_append] at hc
        have hsegne : (c0 :: r2.takeWhile (fun c => !(c == '/'))) ≠ [] := by simp
        rw [List.getLast?_eq_getLast _ hsegne] at hc
        have hceq : (c0 :: r2.takeWhile (fun c => !(c == '/'))).getLast hsegne
            = c := Option.some.inj hc
        have hcm : c ∈ c0 :: r2.takeWhile (fun c => !(c == '/')) := by
          rw [← hceq]
          exact List.getLast_mem hsegne
        rcases List.mem_cons.mp hcm with hce | hcm2
        · rw [hce]
          exact hc0
        · have hcp := List.mem_takeWhile_imp hcm2
          simpa using hcp

/-- C6: with a non-empty configured root prefix, when every stored key is the image of
a valid host path, every entry List returns has the root prefix stripped back out (the
root key is not a prefix of the entry) and satisfies the host's path syntax: it starts
with a slash and does not end with one. -/
theorem list_strips_root (s : Store) (root p : GoStr)
    (hroot : getKey root [] ≠ [])
    (hstore : ∀ q ∈ s, ∃ u, ValidPath u ∧ q.1 = getKey root u)
    (hp : ValidPath p ∨ p = ['/']) :
    ∀ e ∈ Kodo.list s root p,
      ¬((getKey root []).isPrefixOf e = true) ∧ (∃ t, e = '/' :: t) ∧
        (∀ c, e.getLast? = some c → c ≠ '/') := by
  intro e he
  simp only [Kodo.list] at he
  have hif2 : (if getKey root [] = [] then (['/'] : GoStr) else []) = [] :=
    if_neg hroot
  rcases hp with hvp | hsl
  · have hif : (if p ≠ ['/'] ∧ p.getLast? ≠ some '/' then p ++ ['/'] else p) =
        p ++ ['/'] :=
      if_pos ⟨validPath_ne_slash hvp, fun hg => (validPath_getLast hvp '/' hg) rfl⟩
    rw [hif, hif2] at he
    obtain ⟨t, ht⟩ := validPath_head hvp
    exact list_entry_core s root (p ++ ['/']) hroot hstore
      ⟨t ++ ['/'], by rw [ht]; rfl⟩ ⟨p, rfl⟩ e he
  · subst hsl
    have hif : (if (['/'] : GoStr) ≠ ['/'] ∧ (['/'] : GoStr).getLast? ≠ some '/' then
        (['/'] : GoStr) ++ ['/'] else ['/']) = ['/'] :=
      if_neg (by simp)
    rw [hif, hif2] at he
    exact list_entry_core s root ['/'] hroot hstore ⟨[], rfl⟩ ⟨[], rfl⟩ e he

theorem list_strips_root_witness :
    ¬((getKey ['r'] []).isPrefixOf ['/', 'a', '/', 'b'] = true) ∧
    (∃ t, (['/', 'a', '/', 'b'] : GoStr) = '/' :: t) ∧
    (∀ c, (['/', 'a', '/', 'b'] : GoStr).getLast? = some c → c ≠ '/') :=
  list_strips_root [((['r', '/', 'a', '/', 'b'] : GoStr), ([1] : List Nat))]
    ['r'] ['/', 'a']
    (by decide)
    (by
      intro q hq
      rw [List.mem_singleton] at hq
      subst hq
      exact ⟨['/', 'a', '/', 'b'],
        ⟨[['a'], ['b']], by decide, by decide, by decide⟩, by decide⟩)
    (Or.inl ⟨[['a']], by decide, by decide, by decide⟩)
    ['/', 'a', '/', 'b'] (by decide)

theorem move_overwrites_dest_witness :
    ∃ s2, move [(['a'], [7]), (['b'], [8])] [] ['/', 'a'] ['/', 'b'] =
        Except.ok s2 ∧
      (getKey [] ['/', 'b'], [7]) ∈ s2 ∧
      (∀ c : List Nat, (getKey [] ['/', 'a'], c) ∉ s2) ∧
      ∀ q ∈ s2, q = (getKey [] ['/', 'b'], [7]) ∨
        q ∈ ([(['a'], [7]), (['b'], [8])] : Store) :=
  (move_overwrites_dest [(['a'], [7]), (['b'], [8])] [] ['/', 'a'] ['/', 'b'] [7]
    (by decide) (by decide)).1 (by decide)

end Kodo
